import Mathlib

/-!
Verification of the object-extraction core of `youtube_get`
(`src/youtube_get/utils/parser.py`), shallowly embedded in Lean 4.

Text is modelled as `List Char` (Python strings are character sequences).
Each Python function of the parser module is embedded as a Lean function
with the same name; exceptional exits are modelled with explicit result
constructors.  The two parsing stages of `parse_for_object_from_startpoint`
(`json.loads` and `ast.literal_eval`, Python standard-library code outside
this repository) are abstracted as function parameters.
-/

namespace YoutubeGet

/-- The keys of the `context_closers` dict: characters that can open a
context and be pushed on the scanner stack. -/
def contextOpeners : List Char := ['{', '[', '"', '/']

/-- `context_closers[c]` from the source: the closer matching an opener,
`none` for characters that are not keys of the dict (a lookup that the
scanner never performs, since the stack only ever holds opener keys). -/
def closerOf (c : Char) : Option Char :=
  if c = '{' then some '}'
  else if c = '[' then some ']'
  else if c = '"' then some '"'
  else if c = '/' then some '/'
  else none

/-- The list `['(', ',', '=', ':', '[', '!', '&', '|', '?', '{', '}', ';']`
from line 112 of the source, as `Option Char` values so that Python's
`None` (modelled `none`) can be tested for membership like any value. -/
def regexPlainAfter : List (Option Char) :=
  [some '(', some ',', some '=', some ':', some '[', some '!',
   some '&', some '|', some '?', some '{', some '}', some ';']

/-- The update `if curr_char not in [' ', '\n']: last_char = curr_char`
performed at the top of every loop iteration.  Python's `None` is not a
member of the whitespace list, so a `none` current character overwrites
`last_char` with `none`. -/
def updLast (last curr : Option Char) : Option Char :=
  match curr with
  | none => none
  | some c => if c = ' ' ∨ c = '\n' then last else some c

/-- The push decision of lines 110-113 of the source: a character is
appended to the stack iff it is an opener key and it is not a `/` whose
preceding non-whitespace character lies outside `regexPlainAfter`. -/
def pushesOpener (lastChar : Option Char) (c : Char) : Bool :=
  contextOpeners.contains c &&
    !(c == '/' && !(regexPlainAfter.contains lastChar))

/-- The `while i < len(html)` loop of `find_object_from_startpoint`
(lines 87-115).  Arguments: the context stack (head = top, i.e. Python's
`stack[-1]`), `last_char`, `curr_char`, the unread remainder `html[i:]`,
and the index `i`.  Returns the final `i` together with the final stack.
A backslash inside a string/regex context advances `i` by two, skipping
the escaped character. -/
def scanGo : List Char → Option Char → Option Char → List Char → Nat → Nat × List Char
  | stack, _, _, [], i => (i, stack)
  | [], _, _, _ :: _, i => (i, [])
  | ctx :: stk, last, curr, c :: rest, i =>
    if some c = closerOf ctx then
      scanGo stk (updLast last curr) (some c) rest (i + 1)
    else if ctx = '"' ∨ ctx = '/' then
      if c = '\\' then
        match rest with
        | [] => (i + 2, ctx :: stk)
        | _ :: rest' => scanGo (ctx :: stk) (updLast last curr) (some c) rest' (i + 2)
      else scanGo (ctx :: stk) (updLast last curr) (some c) rest (i + 1)
    else if pushesOpener (updLast last curr) c then
      scanGo (c :: ctx :: stk) (updLast last curr) (some c) rest (i + 1)
    else scanGo (ctx :: stk) (updLast last curr) (some c) rest (i + 1)

/-- Outcome of `find_object_from_startpoint`: a returned span, the
`HTMLParseError('Invalid start point. ...')` of line 71, or the Python
`IndexError` raised by `html[0]` when the slice from `start_point` is
empty. -/
inductive FindResult where
  | ok (span : List Char)
  | invalidStart
  | indexError
deriving DecidableEq, Repr

/-- `find_object_from_startpoint` (lines 59-118): slice the text at
`start_point`, require an opening `{` or `[`, run the scanner loop with
initial state `last_char = '{'`, `curr_char = None`, `stack = [html[0]]`,
`i = 1`, and return `html[:i]` for the final `i`. -/
def find_object_from_startpoint (html : List Char) (startPoint : Nat) : FindResult :=
  match html.drop startPoint with
  | [] => .indexError
  | c :: rest =>
    if c = '{' ∨ c = '[' then
      .ok ((c :: rest).take (scanGo [c] (some '{') none rest 1).1)
    else .invalidStart

/-- Outcome of `parse_for_object_from_startpoint`: a parsed value, the
invalid-start `HTMLParseError` propagated from the scanner, the
`HTMLParseError('Could not parse object.')` of line 138 raised when both
parsing stages fail, or a propagated `IndexError`. -/
inductive ParseResult (α : Type) where
  | ok (v : α)
  | invalidStart
  | parseFailure
  | indexError
deriving DecidableEq, Repr

/-- `parse_for_object_from_startpoint` (lines 121-138): scan the span,
then try `json.loads`; on its failure try `ast.literal_eval`; if both
fail raise.  The two standard-library parsers are passed in as abstract
stage functions (`none` models a raised `JSONDecodeError`, resp.
`ValueError`/`SyntaxError`). -/
def parse_for_object_from_startpoint {α : Type}
    (jsonLoads litEval : List Char → Option α)
    (html : List Char) (startPoint : Nat) : ParseResult α :=
  match find_object_from_startpoint html startPoint with
  | .indexError => .indexError
  | .invalidStart => .invalidStart
  | .ok fullObj =>
    match jsonLoads fullObj with
    | some v => .ok v
    | none =>
      match litEval fullObj with
      | some v => .ok v
      | none => .parseFailure

/-- Outcome of `parse_for_all_objects`: the collected values, the
`HTMLParseError('No matches for regex ...')` of line 35 raised when no
candidate produced a value, or a propagated `IndexError` (the `except`
clause of line 26 catches only `HTMLParseError`). -/
inductive AllResult (α : Type) where
  | ok (l : List α)
  | noMatches
  | indexError
deriving DecidableEq, Repr

/-- The `for match in match_iter` loop of `parse_for_all_objects`
(lines 21-32), over the list of end offsets of the anchor-regex matches
in order of occurrence.  A candidate failing with `HTMLParseError`
(invalid start or parse failure) is skipped; an `IndexError` propagates
(modelled `none`). -/
def collectObjects {α : Type} (jsonLoads litEval : List Char → Option α)
    (html : List Char) : List Nat → Option (List α)
  | [] => some []
  | e :: es =>
    match parse_for_object_from_startpoint jsonLoads litEval html e with
    | .indexError => none
    | .ok v =>
      match collectObjects jsonLoads litEval html es with
      | some l => some (v :: l)
      | none => none
    | .invalidStart => collectObjects jsonLoads litEval html es
    | .parseFailure => collectObjects jsonLoads litEval html es

/-- `parse_for_all_objects` (lines 8-37), with the regex engine
abstracted: `matchEnds` is the list of `match.end()` offsets that
`re.finditer(preceding_regex, html)` yields, in match order. -/
def parse_for_all_objects {α : Type} (jsonLoads litEval : List Char → Option α)
    (html : List Char) (matchEnds : List Nat) : AllResult α :=
  match collectObjects jsonLoads litEval html matchEnds with
  | none => .indexError
  | some [] => .noMatches
  | some l => .ok l

/-- Index of the first occurrence of a character in a list, the model of
`re.compile(r",").search` (and of the search for a closing parenthesis
inside the `function\(...\)` regex). -/
def findCharIdx (target : Char) : List Char → Option Nat
  | [] => none
  | c :: rest =>
    if c = target then some 0
    else
      match findCharIdx target rest with
      | some k => some (k + 1)
      | none => none

/-- Model of `re.compile(r",").search(curr_substring)`: the index of the
first comma, `none` when the text has no comma. -/
def findComma (s : List Char) : Option Nat := findCharIdx ',' s

/-- Model of `re.compile(r"function\([^)]*\)").search(s)` at offset `p`:
the leftmost position where the literal `function(` occurs followed
somewhere later by `)`; the greedy `[^)]*` makes the match end just past
the first `)` after the `(`.  Returns the match span `(start, end)`. -/
def findFuncSpanGo : List Char → Nat → Option (Nat × Nat)
  | [], _ => none
  | c :: rest, p =>
    if "function(".data.isPrefixOf (c :: rest) then
      match findCharIdx ')' ((c :: rest).drop 9) with
      | some k => some (p, p + 9 + k + 1)
      | none => findFuncSpanGo rest (p + 1)
    else findFuncSpanGo rest (p + 1)

/-- Model of `func_regex.search(curr_substring)` from line 161. -/
def findFuncSpan (s : List Char) : Option (Nat × Nat) := findFuncSpanGo s 0

/-- The `while len(curr_substring) > 0` loop of `throttling_array_split`
(lines 158-180), fuelled to make the recursion structural (the fuel
passed by `throttling_array_split` always suffices, since every
iteration strictly shrinks the remainder).  `none` models an uncaught
exception: `AttributeError` when the function regex has no match, or an
`HTMLParseError`/`IndexError` escaping `find_object_from_startpoint`. -/
def throttlingGo : Nat → List Char → Option (List (List Char))
  | 0, _ => none
  | fuel + 1, curr =>
    if curr.isEmpty then some []
    else if "function".data.isPrefixOf curr then
      match findFuncSpan curr with
      | none => none
      | some (_, matchEnd) =>
        match find_object_from_startpoint curr matchEnd with
        | .ok functionText =>
          match throttlingGo fuel (curr.drop ((curr.take (matchEnd + functionText.length)).length + 1)) with
          | some rest => some (curr.take (matchEnd + functionText.length) :: rest)
          | none => none
        | .invalidStart => none
        | .indexError => none
    else
      match findComma curr with
      | some idx =>
        match throttlingGo fuel (curr.drop (idx + 1)) with
        | some rest => some (curr.take idx :: rest)
        | none => none
      | none =>
        match throttlingGo fuel (curr.drop curr.length) with
        | some rest => some (curr.take (curr.length - 1) :: rest)
        | none => none

/-- `throttling_array_split` (lines 141-182): strip the leading `[` and
run the splitting loop.  In the no-comma branch the source sets
`match_start = len(curr_substring) - 1` and `match_end = match_start + 1`,
so the appended element is the remainder without its final character and
the next remainder is empty. -/
def throttling_array_split (jsArray : List Char) : Option (List (List Char)) :=
  throttlingGo (jsArray.length + 1) (jsArray.drop 1)

/-! ### Balanced bracket-only spans

`Bal s` says that `s` is a properly nested word over the bracket pairs
`{}` and `[]`, containing no string or regex delimiter, with arbitrary
other characters interleaved.  This is the "syntactically balanced using
only braces and brackets, containing no string or regex literals"
hypothesis of the specification. -/

/-- Properly nested bracket words with neutral filler characters. -/
inductive Bal : List Char → Prop
  | nil : Bal []
  | other {c : Char} {s : List Char} :
      c ∉ (['{', '[', '}', ']', '"', '/'] : List Char) → Bal s → Bal (c :: s)
  | brace {s t : List Char} : Bal s → Bal t → Bal ('{' :: s ++ '}' :: t)
  | brack {s t : List Char} : Bal s → Bal t → Bal ('[' :: s ++ ']' :: t)

/-- Contribution of one character to the opener/closer count. -/
def braceDelta (c : Char) : Int :=
  if c = '{' ∨ c = '[' then 1 else if c = '}' ∨ c = ']' then -1 else 0

/-- Number of openers minus number of closers in a span. -/
def braceCount (l : List Char) : Int := (l.map braceDelta).sum

theorem braceCount_nil : braceCount [] = 0 := rfl

theorem braceCount_cons (c : Char) (l : List Char) :
    braceCount (c :: l) = braceDelta c + braceCount l := by
  simp [braceCount]

theorem braceCount_append (l₁ l₂ : List Char) :
    braceCount (l₁ ++ l₂) = braceCount l₁ + braceCount l₂ := by
  simp [braceCount]

/-- A character that is neither a bracket nor a string/regex delimiter
contributes nothing to the opener/closer count. -/
theorem braceDelta_eq_zero_of_not_mem {c : Char}
    (hc : c ∉ (['{', '[', '}', ']', '"', '/'] : List Char)) : braceDelta c = 0 := by
  simp only [List.mem_cons, List.not_mem_nil, or_false] at hc
  push_neg at hc
  simp [braceDelta, hc.1, hc.2.1, hc.2.2.1, hc.2.2.2.1]

/-- A balanced word has equally many openers and closers. -/
theorem Bal.braceCount_eq_zero {s : List Char} (h : Bal s) : braceCount s = 0 := by
  induction h with
  | nil => rfl
  | @other c s hc _ ih =>
    rw [braceCount_cons, braceDelta_eq_zero_of_not_mem hc, ih]
    ring
  | @brace s₁ s₂ _ _ ih₁ ih₂ =>
    rw [List.cons_append, braceCount_cons, braceCount_append, braceCount_cons, ih₁, ih₂]
    simp [braceDelta]
  | @brack s₁ s₂ _ _ ih₁ ih₂ =>
    rw [List.cons_append, braceCount_cons, braceCount_append, braceCount_cons, ih₁, ih₂]
    simp [braceDelta]

/-- Every prefix of a balanced word has at least as many openers as
closers. -/
theorem Bal.braceCount_take_nonneg {s : List Char} (h : Bal s) :
    ∀ m, 0 ≤ braceCount (s.take m) := by
  induction h with
  | nil => intro m; simp [braceCount]
  | @other c s hc _ ih =>
    intro m
    cases m with
    | zero => simp [braceCount]
    | succ k =>
      rw [List.take_succ_cons, braceCount_cons, braceDelta_eq_zero_of_not_mem hc]
      simpa using ih k
  | @brace s₁ s₂ h₁ _ ih₁ ih₂ =>
    intro m
    cases m with
    | zero => simp [braceCount]
    | succ k =>
      rw [List.cons_append, List.take_succ_cons, braceCount_cons]
      have hδ : braceDelta '{' = 1 := by simp [braceDelta]
      rw [hδ, List.take_append_eq_append_take, braceCount_append]
      by_cases hk : k ≤ s₁.length
      · have h0 : k - s₁.length = 0 := Nat.sub_eq_zero_of_le hk
        rw [h0]
        have := ih₁ k
        simp only [List.take_zero, braceCount_nil]
        omega
      · push_neg at hk
        rw [List.take_of_length_le (Nat.le_of_lt hk)]
        have h0 : braceCount s₁ = 0 := h₁.braceCount_eq_zero
        obtain ⟨j, hj⟩ : ∃ j, k - s₁.length = j + 1 :=
          ⟨k - s₁.length - 1, by omega⟩
        rw [hj, List.take_succ_cons, braceCount_cons]
        have hδ' : braceDelta '}' = -1 := by simp [braceDelta]
        have := ih₂ j
        rw [h0, hδ']
        omega
  | @brack s₁ s₂ h₁ _ ih₁ ih₂ =>
    intro m
    cases m with
    | zero => simp [braceCount]
    | succ k =>
      rw [List.cons_append, List.take_succ_cons, braceCount_cons]
      have hδ : braceDelta '[' = 1 := by simp [braceDelta]
      rw [hδ, List.take_append_eq_append_take, braceCount_append]
      by_cases hk : k ≤ s₁.length
      · have h0 : k - s₁.length = 0 := Nat.sub_eq_zero_of_le hk
        rw [h0]
        have := ih₁ k
        simp only [List.take_zero, braceCount_nil]
        omega
      · push_neg at hk
        rw [List.take_of_length_le (Nat.le_of_lt hk)]
        have h0 : braceCount s₁ = 0 := h₁.braceCount_eq_zero
        obtain ⟨j, hj⟩ : ∃ j, k - s₁.length = j + 1 :=
          ⟨k - s₁.length - 1, by omega⟩
        rw [hj, List.take_succ_cons, braceCount_cons]
        have hδ' : braceDelta ']' = -1 := by simp [braceDelta]
        have := ih₂ j
        rw [h0, hδ']
        omega

/-! ### Single-step behaviour of the scanner loop -/

/-- A character outside the bracket/string/regex alphabet is never
pushed. -/
theorem pushesOpener_eq_false_of_not_mem {c : Char}
    (hc : c ∉ (['{', '[', '}', ']', '"', '/'] : List Char)) (last : Option Char) :
    pushesOpener last c = false := by
  simp only [List.mem_cons, List.not_mem_nil, or_false] at hc
  push_neg at hc
  simp [pushesOpener, contextOpeners, hc.1, hc.2.1, hc.2.2.2.2.1, hc.2.2.2.2.2]

/-- Loop step on a character matching the closer of the top context:
pop and advance. -/
theorem scanGo_cons_close (x : Char) (stk : List Char) (last curr : Option Char)
    (c : Char) (rest : List Char) (i : Nat) (hm : some c = closerOf x) :
    scanGo (x :: stk) last curr (c :: rest) i
      = scanGo stk (updLast last curr) (some c) rest (i + 1) := by
  rw [scanGo.eq_def]
  dsimp only
  rw [if_pos hm]

/-- Loop step in a bracket context on a neutral character: state
unchanged apart from the character tracking. -/
theorem scanGo_cons_other (x : Char) (stk : List Char) (last curr : Option Char)
    {c : Char} (rest : List Char) (i : Nat)
    (hx : x = '{' ∨ x = '[')
    (hc : c ∉ (['{', '[', '}', ']', '"', '/'] : List Char)) :
    scanGo (x :: stk) last curr (c :: rest) i
      = scanGo (x :: stk) (updLast last curr) (some c) rest (i + 1) := by
  have hcomp := hc
  simp only [List.mem_cons, List.not_mem_nil, or_false] at hcomp
  push_neg at hcomp
  have hcl : ¬ (some c = closerOf x) := by
    rcases hx with rfl | rfl
    · rw [show closerOf '{' = some '}' from rfl]
      simp [hcomp.2.2.1]
    · rw [show closerOf '[' = some ']' from rfl]
      simp [hcomp.2.2.2.1]
  have hstr : ¬ (x = '"' ∨ x = '/') := by
    rcases hx with rfl | rfl <;> decide
  have hpush := pushesOpener_eq_false_of_not_mem hc (updLast last curr)
  rw [scanGo.eq_def]
  dsimp only
  rw [if_neg hcl, if_neg hstr, hpush]
  simp

/-- Loop step in a bracket context on an opening bracket: push and
advance. -/
theorem scanGo_cons_open (x : Char) (stk : List Char) (last curr : Option Char)
    {o : Char} (rest : List Char) (i : Nat)
    (hx : x = '{' ∨ x = '[') (ho : o = '{' ∨ o = '[') :
    scanGo (x :: stk) last curr (o :: rest) i
      = scanGo (o :: x :: stk) (updLast last curr) (some o) rest (i + 1) := by
  have hcl : ¬ (some o = closerOf x) := by
    rcases hx with rfl | rfl <;> rcases ho with rfl | rfl <;> decide
  have hstr : ¬ (x = '"' ∨ x = '/') := by
    rcases hx with rfl | rfl <;> decide
  have hpush : pushesOpener (updLast last curr) o = true := by
    rcases ho with rfl | rfl <;> rfl
  rw [scanGo.eq_def]
  dsimp only
  rw [if_neg hcl, if_neg hstr, hpush]
  simp

/-- Loop step in a string/regex context on a backslash with at least one
following character: skip two characters, whatever the skipped character
is; the stack is untouched. -/
theorem scanGo_cons_strEsc (ctx : Char) (stk : List Char) (last curr : Option Char)
    (x : Char) (rest : List Char) (i : Nat) (hctx : ctx = '"' ∨ ctx = '/') :
    scanGo (ctx :: stk) last curr ('\\' :: x :: rest) i
      = scanGo (ctx :: stk) (updLast last curr) (some '\\') rest (i + 2) := by
  have hcl : ¬ (some '\\' = closerOf ctx) := by
    rcases hctx with rfl | rfl <;> decide
  rw [scanGo.eq_def]
  dsimp only
  rw [if_neg hcl, if_pos hctx, if_pos rfl]

/-- Loop step in a string/regex context on a final backslash: the index
jumps past the end of the input and the loop exits with the stack
untouched. -/
theorem scanGo_cons_strEsc_nil (ctx : Char) (stk : List Char) (last curr : Option Char)
    (i : Nat) (hctx : ctx = '"' ∨ ctx = '/') :
    scanGo (ctx :: stk) last curr ['\\'] i = (i + 2, ctx :: stk) := by
  have hcl : ¬ (some '\\' = closerOf ctx) := by
    rcases hctx with rfl | rfl <;> decide
  rw [scanGo.eq_def]
  dsimp only
  rw [if_neg hcl, if_pos hctx, if_pos rfl]

/-- Loop step in a string/regex context on an ordinary character:
advance one position, stack untouched. -/
theorem scanGo_cons_strOther (ctx : Char) (stk : List Char) (last curr : Option Char)
    (c : Char) (rest : List Char) (i : Nat) (hcl : ¬ (some c = closerOf ctx))
    (hctx : ctx = '"' ∨ ctx = '/') (hbs : c ≠ '\\') :
    scanGo (ctx :: stk) last curr (c :: rest) i
      = scanGo (ctx :: stk) (updLast last curr) (some c) rest (i + 1) := by
  rw [scanGo.eq_def]
  dsimp only
  rw [if_neg hcl, if_pos hctx, if_neg hbs]

/-- Loop step in a non-string context on a character the push heuristic
accepts. -/
theorem scanGo_cons_push (ctx : Char) (stk : List Char) (last curr : Option Char)
    (c : Char) (rest : List Char) (i : Nat) (hcl : ¬ (some c = closerOf ctx))
    (hstr : ¬ (ctx = '"' ∨ ctx = '/'))
    (hp : pushesOpener (updLast last curr) c = true) :
    scanGo (ctx :: stk) last curr (c :: rest) i
      = scanGo (c :: ctx :: stk) (updLast last curr) (some c) rest (i + 1) := by
  rw [scanGo.eq_def]
  dsimp only
  rw [if_neg hcl, if_neg hstr, hp]
  simp

/-- Loop step in a non-string context on a character the push heuristic
rejects. -/
theorem scanGo_cons_nopush (ctx : Char) (stk : List Char) (last curr : Option Char)
    (c : Char) (rest : List Char) (i : Nat) (hcl : ¬ (some c = closerOf ctx))
    (hstr : ¬ (ctx = '"' ∨ ctx = '/'))
    (hp : pushesOpener (updLast last curr) c = false) :
    scanGo (ctx :: stk) last curr (c :: rest) i
      = scanGo (ctx :: stk) (updLast last curr) (some c) rest (i + 1) := by
  rw [scanGo.eq_def]
  dsimp only
  rw [if_neg hcl, if_neg hstr, hp]
  simp

/-- The loop exits immediately on exhausted input. -/
theorem scanGo_nil (stk : List Char) (last curr : Option Char) (i : Nat) :
    scanGo stk last curr [] i = (i, stk) := by
  cases stk <;> rfl

/-- The loop exits immediately once the stack is empty. -/
theorem scanGo_nil_stack (last curr : Option Char) (rem : List Char) (i : Nat) :
    scanGo [] last curr rem i = (i, []) := by
  cases rem <;> rfl

/-- If the scanner loop ends with a nonempty stack, it has consumed the
whole remaining input: the stack only ever shrinks at context closers,
and the loop exits with a nonempty stack only on input exhaustion. -/
theorem scanGo_consumes_all_of_snd_ne_nil :
    ∀ stk last curr rem i, (scanGo stk last curr rem i).2 ≠ [] →
      i + rem.length ≤ (scanGo stk last curr rem i).1 := by
  intro stk last curr rem i
  induction stk, last, curr, rem, i using scanGo.induct with
  | case1 stack last curr i =>
    intro _
    cases stack <;> (rw [scanGo.eq_def]; dsimp only; simp)
  | case2 last curr head tail i =>
    intro h
    rw [scanGo.eq_def] at h
    dsimp only at h
    exact absurd rfl h
  | case3 ctx stk last curr c rest i hcl ih =>
    rw [scanGo_cons_close ctx stk last curr c rest i hcl]
    intro h
    have := ih h
    simp only [List.length_cons]
    omega
  | case4 ctx stk last curr i hctx hcl =>
    rw [scanGo_cons_strEsc_nil ctx stk last curr i hctx]
    intro _
    simp
  | case5 ctx stk last curr i hctx head rest' hcl ih =>
    rw [scanGo_cons_strEsc ctx stk last curr head rest' i hctx]
    intro h
    have := ih h
    simp only [List.length_cons]
    omega
  | case6 ctx stk last curr c rest i hcl hctx hbs ih =>
    rw [scanGo_cons_strOther ctx stk last curr c rest i hcl hctx hbs]
    intro h
    have := ih h
    simp only [List.length_cons]
    omega
  | case7 ctx stk last curr c rest i hcl hstr hp ih =>
    rw [scanGo_cons_push ctx stk last curr c rest i hcl hstr hp]
    intro h
    have := ih h
    simp only [List.length_cons]
    omega
  | case8 ctx stk last curr c rest i hcl hstr hp ih =>
    rw [scanGo_cons_nopush ctx stk last curr c rest i hcl hstr
      (Bool.not_eq_true _ ▸ eq_false_of_ne_true hp)]
    intro h
    have := ih h
    simp only [List.length_cons]
    omega

/-- Running the scanner loop over a balanced bracket-only word leaves
the stack unchanged and advances the index by exactly the word's
length, for any nonempty all-bracket stack. -/
theorem scanGo_bal {s : List Char} (hs : Bal s) :
    ∀ stk last curr t i, stk ≠ [] → (∀ x ∈ stk, x = '{' ∨ x = '[') →
      ∃ last' curr', scanGo stk last curr (s ++ t) i
        = scanGo stk last' curr' t (i + s.length) := by
  induction hs with
  | nil =>
    intro stk last curr t i _ _
    exact ⟨last, curr, by simp⟩
  | @other c s hc _ ih =>
    intro stk last curr t i hne hstk
    obtain ⟨x, stk', rfl⟩ : ∃ x stk', stk = x :: stk' := by
      cases stk with
      | nil => exact absurd rfl hne
      | cons a b => exact ⟨a, b, rfl⟩
    obtain ⟨l', c', heq⟩ :=
      ih (x :: stk') (updLast last curr) (some c) t (i + 1) hne hstk
    refine ⟨l', c', ?_⟩
    rw [List.cons_append,
      scanGo_cons_other x stk' last curr (s ++ t) i (hstk x (by simp)) hc]
    rw [heq]
    congr 1
    simp
    omega
  | @brace s₁ s₂ h₁ _ ih₁ ih₂ =>
    intro stk last curr t i hne hstk
    obtain ⟨x, stk', rfl⟩ : ∃ x stk', stk = x :: stk' := by
      cases stk with
      | nil => exact absurd rfl hne
      | cons a b => exact ⟨a, b, rfl⟩
    have hshape : (('{' :: s₁) ++ ('}' :: s₂)) ++ t
        = '{' :: (s₁ ++ ('}' :: (s₂ ++ t))) := by
      simp [List.cons_append, List.append_assoc]
    rw [hshape,
      scanGo_cons_open x stk' last curr _ i (hstk x (by simp)) (Or.inl rfl)]
    obtain ⟨l₂, c₂, heq₂⟩ :=
      ih₁ ('{' :: x :: stk') (updLast last curr) (some '{')
        ('}' :: (s₂ ++ t)) (i + 1) (by simp)
        (by
          intro y hy
          rcases List.mem_cons.mp hy with rfl | hy'
          · exact Or.inl rfl
          · exact hstk y hy')
    rw [heq₂, scanGo_cons_close '{' (x :: stk') l₂ c₂ '}' (s₂ ++ t) _ rfl]
    obtain ⟨l₃, c₃, heq₃⟩ :=
      ih₂ (x :: stk') (updLast l₂ c₂) (some '}') t (i + 1 + s₁.length + 1)
        hne hstk
    refine ⟨l₃, c₃, ?_⟩
    rw [heq₃]
    congr 1
    simp [List.length_append]
    omega
  | @brack s₁ s₂ h₁ _ ih₁ ih₂ =>
    intro stk last curr t i hne hstk
    obtain ⟨x, stk', rfl⟩ : ∃ x stk', stk = x :: stk' := by
      cases stk with
      | nil => exact absurd rfl hne
      | cons a b => exact ⟨a, b, rfl⟩
    have hshape : (('[' :: s₁) ++ (']' :: s₂)) ++ t
        = '[' :: (s₁ ++ (']' :: (s₂ ++ t))) := by
      simp [List.cons_append, List.append_assoc]
    rw [hshape,
      scanGo_cons_open x stk' last curr _ i (hstk x (by simp)) (Or.inr rfl)]
    obtain ⟨l₂, c₂, heq₂⟩ :=
      ih₁ ('[' :: x :: stk') (updLast last curr) (some '[')
        (']' :: (s₂ ++ t)) (i + 1) (by simp)
        (by
          intro y hy
          rcases List.mem_cons.mp hy with rfl | hy'
          · exact Or.inr rfl
          · exact hstk y hy')
    rw [heq₂, scanGo_cons_close '[' (x :: stk') l₂ c₂ ']' (s₂ ++ t) _ rfl]
    obtain ⟨l₃, c₃, heq₃⟩ :=
      ih₂ (x :: stk') (updLast l₂ c₂) (some ']') t (i + 1 + s₁.length + 1)
        hne hstk
    refine ⟨l₃, c₃, ?_⟩
    rw [heq₃]
    congr 1
    simp [List.length_append]
    omega

/-- The scanner hits the unguarded `html[0]` index error exactly when
the slice from the start offset is empty. -/
theorem find_indexError_iff (html : List Char) (st : Nat) :
    find_object_from_startpoint html st = .indexError ↔ html.length ≤ st := by
  rw [← List.drop_eq_nil_iff]
  unfold find_object_from_startpoint
  cases html.drop st with
  | nil => simp
  | cons c rest => by_cases hc : c = '{' ∨ c = '[' <;> simp [hc]

/-- `parse_for_object_from_startpoint` propagates exactly the scanner's
index error. -/
theorem parse_indexError_iff {α : Type} (jsonLoads litEval : List Char → Option α)
    (html : List Char) (st : Nat) :
    parse_for_object_from_startpoint jsonLoads litEval html st = .indexError
      ↔ html.length ≤ st := by
  rw [← find_indexError_iff]
  unfold parse_for_object_from_startpoint
  cases hf : find_object_from_startpoint html st with
  | ok span =>
    cases hj : jsonLoads span with
    | some v => simp [hf, hj]
    | none =>
      cases hl : litEval span with
      | some v => simp [hf, hj, hl]
      | none => simp [hf, hj, hl]
  | invalidStart => simp [hf]
  | indexError => simp [hf]

/-- The values the find-all loop keeps: one entry per anchor occurrence
whose scan+parse succeeds, in match order. -/
def keptObjects {α : Type} (jsonLoads litEval : List Char → Option α)
    (html : List Char) (matchEnds : List Nat) : List α :=
  matchEnds.filterMap (fun e =>
    match parse_for_object_from_startpoint jsonLoads litEval html e with
    | .ok v => some v
    | .invalidStart => none
    | .parseFailure => none
    | .indexError => none)

/-- When every candidate offset is strictly inside the text, the
collection loop of `parse_for_all_objects` never crashes and collects
exactly the successful candidates, in match order. -/
theorem collectObjects_eq_filterMap {α : Type}
    (jsonLoads litEval : List Char → Option α) (html : List Char)
    (matchEnds : List Nat) (h : ∀ e ∈ matchEnds, e < html.length) :
    collectObjects jsonLoads litEval html matchEnds
      = some (keptObjects jsonLoads litEval html matchEnds) := by
  unfold keptObjects
  induction matchEnds with
  | nil => rfl
  | cons e es ih =>
    have he : e < html.length := h e (by simp)
    have hrest := ih (fun x hx => h x (by simp [hx]))
    have hnotIdx : parse_for_object_from_startpoint jsonLoads litEval html e
        ≠ .indexError := by
      intro hcontra
      exact absurd ((parse_indexError_iff jsonLoads litEval html e).mp hcontra)
        (by omega)
    cases hp : parse_for_object_from_startpoint jsonLoads litEval html e with
    | ok v => simp [collectObjects, hp, hrest, List.filterMap_cons]
    | invalidStart => simp [collectObjects, hp, hrest, List.filterMap_cons]
    | parseFailure => simp [collectObjects, hp, hrest, List.filterMap_cons]
    | indexError => exact absurd hp hnotIdx

/-! ### Claim theorems -/

/-- C9: for every text and in-bounds start offset,
`find_object_from_startpoint` fails with the invalid-start error iff the
character at the start offset is neither `{` nor `[`; on that error no
span is returned (the error and span constructors are distinct). -/
theorem invalid_start_iff_not_opener (html : List Char) (st : Nat)
    (h : st < html.length) :
    find_object_from_startpoint html st = .invalidStart
      ↔ (html[st] ≠ '{' ∧ html[st] ≠ '[') := by
  have hd := List.drop_eq_getElem_cons (l := html) (n := st) h
  unfold find_object_from_startpoint
  rw [hd]
  dsimp only
  by_cases hc : html[st] = '{' ∨ html[st] = '['
  · rw [if_pos hc]
    simp only [reduceCtorEq, false_iff]
    tauto
  · rw [if_neg hc]
    simp only [true_iff]
    tauto

/-- C9 witness: `scan("abc", 0)` fails with the invalid-start error. -/
theorem invalid_start_iff_not_opener_witness :
    find_object_from_startpoint "abc".data 0 = .invalidStart :=
  (invalid_start_iff_not_opener "abc".data 0 (by decide)).mpr (by decide)

/-- C10: for every text and start offset at or past the end of the text
(so the working slice is empty), the unguarded access to the slice's
first character raises the index error rather than the documented
invalid-start failure. -/
theorem out_of_range_start_index_error (html : List Char) (st : Nat)
    (h : html.length ≤ st) :
    find_object_from_startpoint html st = .indexError :=
  (find_indexError_iff html st).mpr h

/-- C10 witness: scanning `"ab"` from offset 5 hits the index error. -/
theorem out_of_range_start_index_error_witness :
    find_object_from_startpoint "ab".data 5 = .indexError :=
  out_of_range_start_index_error "ab".data 5 (by decide)

/-- In the non-string branch, a slash is pushed exactly when the
preceding tracked character belongs to `regexPlainAfter`. -/
theorem pushesOpener_slash_eq (last : Option Char) :
    pushesOpener last '/' = regexPlainAfter.contains last := by
  unfold pushesOpener
  rw [show contextOpeners.contains '/' = true from rfl,
    show (('/' : Char) == '/') = true from rfl]
  simp [Bool.not_not]

/-- C2 counterexample: the claim's direction is reversed.  With
`last_char = '('` (a member of the listed set) the slash IS pushed as a
regex opener, and with `last_char = 'a'` (not a member) it is NOT
pushed. -/
theorem slash_heuristic_counterexample :
    pushesOpener (some '(') '/' = true ∧ pushesOpener (some 'a') '/' = false := by
  decide

/-- C2 (amended): in a non-string context a `/` is pushed as a
regex-context opener exactly when `last_char` is one of
`( , = : [ ! & | ? { } ;`; otherwise — including when `last_char` is
undefined (`none`) — it is treated as a plain token and not pushed. -/
theorem slash_pushed_iff_last_in_list :
    (∀ last : Option Char, pushesOpener last '/' = regexPlainAfter.contains last)
    ∧ pushesOpener none '/' = false
    ∧ (∀ ctx stk last curr rest i, (ctx = '{' ∨ ctx = '[') →
        scanGo (ctx :: stk) last curr ('/' :: rest) i
          = scanGo
              (if regexPlainAfter.contains (updLast last curr)
                then '/' :: ctx :: stk else ctx :: stk)
              (updLast last curr) (some '/') rest (i + 1)) := by
  refine ⟨pushesOpener_slash_eq, by decide, ?_⟩
  intro ctx stk last curr rest i hctx
  have hcl : ¬ (some '/' = closerOf ctx) := by
    rcases hctx with rfl | rfl <;> decide
  have hstr : ¬ (ctx = '"' ∨ ctx = '/') := by
    rcases hctx with rfl | rfl <;> decide
  by_cases hc : regexPlainAfter.contains (updLast last curr) = true
  · rw [if_pos hc]
    exact scanGo_cons_push ctx stk last curr '/' rest i hcl hstr
      ((pushesOpener_slash_eq _).trans hc)
  · rw [if_neg hc]
    exact scanGo_cons_nopush ctx stk last curr '/' rest i hcl hstr
      ((pushesOpener_slash_eq _).trans (Bool.not_eq_true _ ▸ eq_false_of_ne_true hc))

/-- C2 witness: with previous character `a`, a slash in an object
context is not pushed. -/
theorem slash_pushed_iff_last_in_list_witness :
    scanGo ['{'] none (some 'a') ['/'] 1
      = scanGo
          (if regexPlainAfter.contains (updLast none (some 'a'))
            then '/' :: '{' :: [] else '{' :: [])
          (updLast none (some 'a')) (some '/') [] 2 :=
  slash_pushed_iff_last_in_list.2.2 '{' [] none (some 'a') [] 1 (Or.inl rfl)

/-- C3 counterexample: on exhausted input with a nonempty stack the
scanner does not fail — it returns a span (the source has no
unterminated-span error at all; line 117 returns `html[:i]`
unconditionally). -/
theorem unterminated_counterexample :
    find_object_from_startpoint ['{'] 0 = .ok ['{']
    ∧ (scanGo ['{'] (some '{') none [] 1).2 ≠ [] := by
  decide

/-- C3 (amended): if the input is exhausted before the context stack
empties, `find_object_from_startpoint` does not fail: it returns the
entire remaining text from the start offset as the span. -/
theorem exhausted_input_returns_remainder (html : List Char) (st : Nat)
    (c : Char) (rest : List Char) (hd : html.drop st = c :: rest)
    (hc : c = '{' ∨ c = '[')
    (hstack : (scanGo [c] (some '{') none rest 1).2 ≠ []) :
    find_object_from_startpoint html st = .ok (html.drop st) := by
  unfold find_object_from_startpoint
  rw [hd]
  dsimp only
  rw [if_pos hc]
  have hge := scanGo_consumes_all_of_snd_ne_nil [c] (some '{') none rest 1 hstack
  congr 1
  apply List.take_of_length_le
  simp only [List.length_cons]
  omega

/-- C3 witness: `"{["` scans to exhaustion with two open contexts and
the whole text is returned. -/
theorem exhausted_input_returns_remainder_witness :
    find_object_from_startpoint ['{', '['] 0 = .ok ['{', '['] :=
  exhausted_input_returns_remainder ['{', '['] 0 '{' ['['] rfl (Or.inl rfl)
    (by decide)

/-- C4: inside a string or regex context a backslash makes the scanner
skip exactly two characters, so an escaped delimiter never closes the
context early and braces or brackets inside a string never change the
stack.  In particular the object with an embedded unbalanced brace
scans in full, and the object with an escaped quote is not terminated
early. -/
theorem string_backslash_skip :
    (∀ ctx stk last curr x rest i, (ctx = '"' ∨ ctx = '/') →
      scanGo (ctx :: stk) last curr ('\\' :: x :: rest) i
        = scanGo (ctx :: stk) (updLast last curr) (some '\\') rest (i + 2))
    ∧ find_object_from_startpoint
        ['{', '"', 'k', '"', ':', '"', 'a', '}', 'b', '"', '}'] 0
        = .ok ['{', '"', 'k', '"', ':', '"', 'a', '}', 'b', '"', '}']
    ∧ find_object_from_startpoint
        ['{', '"', 'k', '"', ':', '"', 'a', '\\', '"', 'b', '"', '}'] 0
        = .ok ['{', '"', 'k', '"', ':', '"', 'a', '\\', '"', 'b', '"', '}'] := by
  refine ⟨?_, by decide, by decide⟩
  intro ctx stk last curr x rest i hctx
  exact scanGo_cons_strEsc ctx stk last curr x rest i hctx

/-- C4 witness: a backslash in a string context skips the following
quote without popping the string context. -/
theorem string_backslash_skip_witness :
    scanGo ['"'] none none ('\\' :: '"' :: []) 5
      = scanGo ['"'] (updLast none none) (some '\\') [] 7 :=
  string_backslash_skip.1 '"' [] none none '"' [] 5 (Or.inl rfl)

/-- C5: once a span has been scanned, parsing first attempts the strict
JSON stage; on its failure it attempts the permissive fallback stage;
the parse fails with the could-not-parse error if and only if both
stages fail. -/
theorem parse_two_stage_fallback {α : Type}
    (jsonLoads litEval : List Char → Option α) (html : List Char) (st : Nat)
    (span : List Char) (h : find_object_from_startpoint html st = .ok span) :
    (parse_for_object_from_startpoint jsonLoads litEval html st = .parseFailure
      ↔ (jsonLoads span = none ∧ litEval span = none))
    ∧ (∀ v, jsonLoads span = some v →
        parse_for_object_from_startpoint jsonLoads litEval html st = .ok v)
    ∧ (∀ v, jsonLoads span = none → litEval span = some v →
        parse_for_object_from_startpoint jsonLoads litEval html st = .ok v) := by
  unfold parse_for_object_from_startpoint
  rw [h]
  refine ⟨?_, ?_, ?_⟩
  · cases hj : jsonLoads span with
    | some v => simp [hj]
    | none =>
      cases hl : litEval span with
      | some v => simp [hj, hl]
      | none => simp [hj, hl]
  · intro v hv
    simp [hv]
  · intro v hj hl
    simp [hj, hl]

/-- C5 witness: when both stages reject the scanned span, the parse
fails with the could-not-parse error. -/
theorem parse_two_stage_fallback_witness :
    parse_for_object_from_startpoint (fun _ => (none : Option Nat))
      (fun _ => none) "{}".data 0 = .parseFailure :=
  (parse_two_stage_fallback (fun _ => (none : Option Nat)) (fun _ => none)
    "{}".data 0 "{}".data (by decide)).1.mpr ⟨rfl, rfl⟩

/-- C6 counterexample: an anchor occurrence ending exactly at the end of
the text makes `parse_for_all_objects` crash with the propagated index
error instead of discarding the occurrence or failing with the folded
no-matches error, so the claim's unrestricted "for every text and
anchor pattern" fails.  (`[1]` is the match-end list of anchor `X` on
text `"X"`.) -/
theorem find_all_end_anchor_crash :
    parse_for_all_objects (fun _ => (none : Option Nat)) (fun _ => none)
      ['X'] [1] = .indexError
    ∧ (AllResult.indexError ≠ (AllResult.noMatches : AllResult Nat)) := by
  decide

/-- C6 (amended): provided every anchor match ends strictly before the
end of the text, `parse_for_all_objects` attempts scan+parse at the end
offset of every match in order, silently discards the occurrences whose
scan or parse raises the caught parse error, keeps the rest in match
order, and fails with the single folded no-matches error iff zero
occurrences yielded a value. -/
theorem find_all_filters_and_folds {α : Type}
    (jsonLoads litEval : List Char → Option α) (html : List Char)
    (matchEnds : List Nat) (hin : ∀ e ∈ matchEnds, e < html.length) :
    (parse_for_all_objects jsonLoads litEval html matchEnds = .noMatches
      ↔ keptObjects jsonLoads litEval html matchEnds = [])
    ∧ (keptObjects jsonLoads litEval html matchEnds ≠ [] →
        parse_for_all_objects jsonLoads litEval html matchEnds
          = .ok (keptObjects jsonLoads litEval html matchEnds)) := by
  have hcoll := collectObjects_eq_filterMap jsonLoads litEval html matchEnds hin
  unfold parse_for_all_objects
  rw [hcoll]
  cases hk : keptObjects jsonLoads litEval html matchEnds with
  | nil => simp
  | cons v l => simp

/-- C6 witness: with two anchor occurrences, one preceding a valid
object and one preceding plain prose, exactly one value is returned and
the call does not fail. -/
theorem find_all_filters_and_folds_witness :
    parse_for_all_objects
      (fun s => if s = "{}".data then some 42 else (none : Option Nat))
      (fun _ => none) "AB{}ABcd".data [2, 6] = .ok [42] := by
  have h := (find_all_filters_and_folds
    (fun s => if s = "{}".data then some 42 else (none : Option Nat))
    (fun _ => none) "AB{}ABcd".data [2, 6] (by decide)).2 (by decide)
  exact h.trans (by decide)

/-- C7: the throttling-array segmenter splits the example array into
exactly its four top-level elements; the comma inside the function body
does not create a split, because the balanced function body is consumed
atomically through the context scanner. -/
theorem segment_function_example :
    throttling_array_split "[1,2,function(e){return e+1},3]".data
      = some ["1".data, "2".data, "function(e){return e+1}".data, "3".data] := by
  decide

/-- C8 counterexample: in the no-comma branch the appended final element
is the remainder without its final character, not the remainder itself:
segmenting `"[12]"` (final remainder `"12]"`) yields element `"12"`,
not `"12]"`. -/
theorem segment_last_element_counterexample :
    throttling_array_split "[12]".data = some [['1', '2']]
    ∧ (some [['1', '2']] ≠ some [['1', '2', ']']]) := by
  decide

/-- C8 (amended): in the non-function branch, for every non-empty
remainder in which no comma is found, the remainder minus its final
character is appended as the final element (the last character — the
trailing `]` in well-formed input — is treated as the separator and
consumed), and the loop terminates with an empty remainder. -/
theorem segment_no_comma_final_element (jsArray curr : List Char)
    (hd : jsArray.drop 1 = curr) (hne : curr ≠ [])
    (hfn : "function".data.isPrefixOf curr = false)
    (hcm : findComma curr = none) :
    throttling_array_split jsArray = some [curr.take (curr.length - 1)] := by
  obtain ⟨n, hn⟩ : ∃ n, jsArray.length = n + 1 := by
    cases jsArray with
    | nil => exact absurd (by simpa using hd.symm) hne
    | cons a l => exact ⟨l.length, by simp⟩
  have hempty : curr.isEmpty = false := by
    cases curr with
    | nil => exact absurd rfl hne
    | cons a l => rfl
  have h0 : throttlingGo (n + 1) [] = some [] := by
    rw [throttlingGo.eq_def]
    rfl
  unfold throttling_array_split
  rw [hd, hn, throttlingGo.eq_def]
  dsimp only
  rw [hempty, hfn, hcm]
  dsimp only
  rw [List.drop_length, h0]
  simp

/-- C8 witness: segmenting `"[3]"` appends `"3"` as the final element
and terminates. -/
theorem segment_no_comma_final_element_witness :
    throttling_array_split "[3]".data = some [['3']] :=
  (segment_no_comma_final_element "[3]".data "3]".data rfl (by decide)
    (by decide) (by decide)).trans (by decide)

/-- C1: for every text and start offset whose remaining text is an
opening bracket, a balanced bracket-only body, the matching closing
bracket, and arbitrary trailing text, the scanner returns exactly the
minimal substring with equal opener/closer counts: the returned span is
the bracketed body, its opener/closer count is zero, and every shorter
nonempty prefix of the remaining text has a nonzero count. -/
theorem scan_balanced_minimal_span (html : List Char) (st : Nat)
    (o cl : Char) (s t : List Char)
    (hd : html.drop st = o :: (s ++ cl :: t)) (hbal : Bal s)
    (hoc : (o = '{' ∧ cl = '}') ∨ (o = '[' ∧ cl = ']')) :
    find_object_from_startpoint html st = .ok (o :: (s ++ [cl]))
    ∧ braceCount (o :: (s ++ [cl])) = 0
    ∧ (∀ m, 0 < m → m < s.length + 2 →
        braceCount ((o :: (s ++ cl :: t)).take m) ≠ 0) := by
  have ho : o = '{' ∨ o = '[' := by
    rcases hoc with ⟨rfl, rfl⟩ | ⟨rfl, rfl⟩
    · exact Or.inl rfl
    · exact Or.inr rfl
  have hclo : some cl = closerOf o := by
    rcases hoc with ⟨rfl, rfl⟩ | ⟨rfl, rfl⟩ <;> rfl
  refine ⟨?_, ?_, ?_⟩
  · unfold find_object_from_startpoint
    rw [hd]
    dsimp only
    rw [if_pos ho]
    obtain ⟨l₂, c₂, heq⟩ := scanGo_bal hbal [o] (some '{') none (cl :: t) 1
      (by simp)
      (by
        intro x hx
        rw [List.mem_singleton] at hx
        rw [hx]
        exact ho)
    rw [heq, scanGo_cons_close o [] l₂ c₂ cl t (1 + s.length) hclo,
      scanGo_nil_stack]
    congr 1
    rw [show (1 + s.length + 1, ([] : List Char)).1 = (s.length + 1) + 1
        from by dsimp only; omega,
      List.take_succ_cons, List.take_append_eq_append_take,
      List.take_of_length_le (by omega),
      show s.length + 1 - s.length = 1 from by omega]
    simp
  · rw [braceCount_cons, braceCount_append, hbal.braceCount_eq_zero,
      braceCount_cons, braceCount_nil]
    rcases hoc with ⟨rfl, rfl⟩ | ⟨rfl, rfl⟩ <;> simp [braceDelta]
  · intro m hm0 hmlt
    obtain ⟨k, rfl⟩ : ∃ k, m = k + 1 := ⟨m - 1, by omega⟩
    rw [List.take_succ_cons, braceCount_cons]
    have hδ : braceDelta o = 1 := by
      rcases ho with rfl | rfl <;> simp [braceDelta]
    have hk : k ≤ s.length := by omega
    rw [hδ, List.take_append_eq_append_take,
      show k - s.length = 0 from Nat.sub_eq_zero_of_le hk,
      List.take_zero, List.append_nil]
    have hnn := hbal.braceCount_take_nonneg k
    omega

/-- C1 witness: scanning `"x{a[b]c}de"` from offset 1 returns exactly
the balanced span `"{a[b]c}"`, whose opener/closer count is zero. -/
theorem scan_balanced_minimal_span_witness :
    find_object_from_startpoint "x{a[b]c}de".data 1 = .ok "{a[b]c}".data
    ∧ braceCount "{a[b]c}".data = 0 := by
  have hb : Bal "a[b]c".data := by
    show Bal ('a' :: ('[' :: ['b'] ++ ']' :: ['c']))
    exact Bal.other (by decide)
      (Bal.brack (Bal.other (by decide) Bal.nil) (Bal.other (by decide) Bal.nil))
  have h := scan_balanced_minimal_span "x{a[b]c}de".data 1 '{' '}'
    "a[b]c".data "de".data rfl hb (Or.inl ⟨rfl, rfl⟩)
  exact ⟨h.1.trans (by decide), h.2.1.symm.trans (by decide) |>.symm⟩

end YoutubeGet
